import Mathlib

/-!
Verification of the fluidml core against its specification.

The development shallowly embeds the relevant parts of the source:

* `src/fluidml/storage/utils.py` — `pack_results`,
  `pack_predecessor_results`, `simplify_results`;
* `src/fluidml/common/dependency.py` — `DependencyMixin.requires` and
  `DependencyMixin.required_by`, modelled as a state machine over a world
  of objects identified by natural numbers;
* `src/fluidml/common/task.py` — the attribute state a fresh `Task`
  object carries after `__init__`, and the set of method names the
  `Task` class (together with `DependencyMixin`) defines.

Python dictionaries are modelled as insertion-ordered association lists
(`List (String × _)`); Python `Any` values are modelled by the inductive
type `PVal`.  Store accesses are instrumented: each embedded function
returns, next to its value, the list of `get_results` calls it issued,
in order.  A Python `raise` is modelled by `Except.error`.
-/

set_option linter.all false

namespace FluidML

variable {κ υ : Type}

/-- A Python runtime value as it appears in the data handled by
`fluidml.storage.utils`: an opaque artifact object (`obj`), a task
configuration dictionary treated atomically (`cfg`), a string-keyed
dictionary, or a list. -/
inductive PVal (κ υ : Type) where
  | obj : υ → PVal κ υ
  | cfg : κ → PVal κ υ
  | strDict : List (String × PVal κ υ) → PVal κ υ
  | list : List (PVal κ υ) → PVal κ υ

/-- The runtime view of an expanded task as consumed by
`pack_results` / `pack_predecessor_results`: only `name`,
`unique_config` and `publishes` are read there. -/
structure Task (κ : Type) where
  name : String
  unique_config : κ
  publishes : List String

/-- The results-store interface as used by `fluidml/storage/utils.py`:
only `get_results(task_name, task_unique_config, task_publishes)` is
called, returning a string-keyed mapping of artifacts. -/
structure ResultsStore (κ υ : Type) where
  get_results : String → κ → List String → List (String × PVal κ υ)

/-- One recorded invocation of `ResultsStore.get_results`, with the
arguments it was given. -/
structure GetResultsCall (κ : Type) where
  task_name : String
  task_unique_config : κ
  task_publishes : List String

/-- The `get_results` call issued for a task `t`:
`store.get_results(t.name, t.unique_config, t.publishes)`. -/
def toCall (t : Task κ) : GetResultsCall κ :=
  ⟨t.name, t.unique_config, t.publishes⟩

/-- The key set of the store result for task `t` (the keys of the
dictionary `store.get_results(t.name, t.unique_config, t.publishes)`). -/
def resultKeys (results_store : ResultsStore κ υ) (t : Task κ) : List String :=
  (results_store.get_results t.name t.unique_config t.publishes).map Prod.fst

/-- The record `{'result': result, 'config': task.unique_config}` built
both by `pack_results` (return_results branch) and by the reduce branch
of `pack_predecessor_results`, where `result` is the store answer for
the task. -/
def resultRecord (results_store : ResultsStore κ υ) (t : Task κ) : PVal κ υ :=
  PVal.strDict
    [("result", PVal.strDict (results_store.get_results t.name t.unique_config t.publishes)),
     ("config", PVal.cfg t.unique_config)]

/-- The inner loop of the non-reduce branch of
`pack_predecessor_results` (utils.py lines 46-51): insert the items of
one predecessor result into the accumulated `results` dictionary,
raising `TaskResultKeyAlreadyExists` when a key is already present. -/
def mergeItems (predecessor_name : String)
    (results : List (String × PVal κ υ)) :
    List (String × PVal κ υ) → Except String (List (String × PVal κ υ))
  | [] => Except.ok results
  | (key, value) :: rest =>
    if key ∈ results.map Prod.fst then
      Except.error (predecessor_name ++ " saves a key " ++ key ++
        " that already exists in another tasks result")
    else
      mergeItems predecessor_name (results ++ [(key, value)]) rest

/-- The outer loop of the non-reduce branch of
`pack_predecessor_results` (utils.py lines 41-52): fetch each
predecessor result from the store and merge it; a raise aborts the
loop.  The first component records the `get_results` calls issued. -/
def packNonReduceGo (results_store : ResultsStore κ υ)
    (calls : List (GetResultsCall κ)) (results : List (String × PVal κ υ)) :
    List (Task κ) → List (GetResultsCall κ) × Except String (List (String × PVal κ υ))
  | [] => (calls, Except.ok results)
  | predecessor :: rest =>
    match mergeItems predecessor.name results
        (results_store.get_results predecessor.name predecessor.unique_config
          predecessor.publishes) with
    | Except.error e =>
      (calls ++ [⟨predecessor.name, predecessor.unique_config, predecessor.publishes⟩],
       Except.error e)
    | Except.ok merged =>
      packNonReduceGo results_store
        (calls ++ [⟨predecessor.name, predecessor.unique_config, predecessor.publishes⟩])
        merged rest

/-- The loop of the reduce branch of `pack_predecessor_results`
(utils.py lines 31-37): append one `{'result': ..., 'config': ...}`
record per predecessor to `all_results`. -/
def packReduceGo (results_store : ResultsStore κ υ)
    (calls : List (GetResultsCall κ)) (all_results : List (PVal κ υ)) :
    List (Task κ) → List (GetResultsCall κ) × List (PVal κ υ)
  | [] => (calls, all_results)
  | predecessor :: rest =>
    packReduceGo results_store
      (calls ++ [⟨predecessor.name, predecessor.unique_config, predecessor.publishes⟩])
      (all_results ++ [PVal.strDict
        [("result", PVal.strDict (results_store.get_results predecessor.name
            predecessor.unique_config predecessor.publishes)),
         ("config", PVal.cfg predecessor.unique_config)]])
      rest

/-- `pack_predecessor_results(predecessor_tasks, results_store,
reduce_task)` from utils.py lines 27-52.  The first component is the
ordered trace of `get_results` calls; the second is the returned
dictionary, or the raised exception. -/
def pack_predecessor_results (predecessor_tasks : List (Task κ))
    (results_store : ResultsStore κ υ) (reduce_task : Bool) :
    List (GetResultsCall κ) × Except String (List (String × PVal κ υ)) :=
  if reduce_task then
    let packed := packReduceGo results_store [] [] predecessor_tasks
    (packed.1, Except.ok [("reduced_results", PVal.list packed.2)])
  else
    packNonReduceGo results_store [] [] predecessor_tasks

/-- `results[key].append(x)` on a `defaultdict(list)`: the value list of
an existing key grows at its end, a missing key is inserted at the end
of the dictionary with the singleton list. -/
def dappend (results : List (String × List α)) (key : String) (x : α) :
    List (String × List α) :=
  match results with
  | [] => [(key, [x])]
  | (k, xs) :: rest =>
    if k = key then (k, xs ++ [x]) :: rest else (k, xs) :: dappend rest key x

/-- The `return_results` loop of `pack_results` (utils.py lines 14-19):
for each task fetch its result from the store and append the
`{'result': ..., 'config': ...}` record under the task name. -/
def packResultsGo (results_store : ResultsStore κ υ)
    (calls : List (GetResultsCall κ)) (results : List (String × List (PVal κ υ))) :
    List (Task κ) → List (GetResultsCall κ) × List (String × List (PVal κ υ))
  | [] => (calls, results)
  | task :: rest =>
    packResultsGo results_store
      (calls ++ [⟨task.name, task.unique_config, task.publishes⟩])
      (dappend results task.name (PVal.strDict
        [("result", PVal.strDict (results_store.get_results task.name
            task.unique_config task.publishes)),
         ("config", PVal.cfg task.unique_config)]))
      rest

/-- The `else` loop of `pack_results` (utils.py lines 21-22): append
each task unique_config under the task name; no store access. -/
def packConfigsGo (results : List (String × List (PVal κ υ))) :
    List (Task κ) → List (String × List (PVal κ υ))
  | [] => results
  | task :: rest => packConfigsGo (dappend results task.name (PVal.cfg task.unique_config)) rest

/-- The value rewrite done by `simplify_results` on one entry: a
one-element list is replaced by its element, any other list is kept as
a list. -/
def simplify_value (task_results : List (PVal κ υ)) : PVal κ υ :=
  match task_results with
  | [x] => x
  | xs => PVal.list xs

/-- `simplify_results(results)` from utils.py lines 55-59: every value
that is a one-element list is unwrapped in place; keys and their order
are untouched. -/
def simplify_results (results : List (String × List (PVal κ υ))) :
    List (String × PVal κ υ) :=
  results.map (fun e => (e.1, simplify_value e.2))

/-- `pack_results(all_tasks, results_store, return_results)` from
utils.py lines 9-24, with the trace of `get_results` calls as first
component. -/
def pack_results (all_tasks : List (Task κ)) (results_store : ResultsStore κ υ)
    (return_results : Bool) :
    List (GetResultsCall κ) × List (String × PVal κ υ) :=
  if return_results then
    let packed := packResultsGo results_store [] [] all_tasks
    (packed.1, simplify_results packed.2)
  else
    ([], simplify_results (packConfigsGo [] all_tasks))

/-- The dependency state of a world of `DependencyMixin` objects,
identified by natural numbers: `preds i` is the `_predecessors` list of
object `i`, `succs i` its `_successors` list
(`src/fluidml/common/dependency.py`). -/
structure DepState where
  preds : Nat → List Nat
  succs : Nat → List Nat

/-- The world where every object is freshly constructed:
`DependencyMixin.__init__` sets `_predecessors = []` and
`_successors = []`. -/
def DepState.init : DepState :=
  ⟨fun _ => [], fun _ => []⟩

/-- The argument of `requires`: either a single spec or a list of
specs (`Union[BaseTaskSpec, List[BaseTaskSpec]]`). -/
inductive PredArg where
  | single : Nat → PredArg
  | list : List Nat → PredArg

/-- `predecessors if isinstance(predecessors, List) else [predecessors]`
(dependency.py line 15). -/
def PredArg.toList : PredArg → List Nat
  | .single p => [p]
  | .list ps => ps

/-- `required_by(self, successor)` (dependency.py lines 23-26):
`self._successors.append(successor)`. -/
def required_by (s : DepState) (selfId successor : Nat) : DepState :=
  { s with succs := fun i => if i = selfId then s.succs i ++ [successor] else s.succs i }

/-- `requires(self, predecessors)` (dependency.py lines 13-21):
normalize the argument to a list, extend `self._predecessors` with it,
then call `predecessor.required_by(self)` on each given predecessor in
order. -/
def requires (s : DepState) (selfId : Nat) (predecessors : PredArg) : DepState :=
  let ps := predecessors.toList
  let s1 : DepState :=
    { s with preds := fun i => if i = selfId then s.preds i ++ ps else s.preds i }
  ps.foldl (fun st p => required_by st p selfId) s1

/-- One `requires` call: which object it is invoked on, and its
argument. -/
structure ReqCall where
  selfId : Nat
  predecessors : PredArg

/-- Run a sequence of `requires` calls from the freshly constructed
world. -/
def runRequires (ops : List ReqCall) : DepState :=
  ops.foldl (fun s op => requires s op.selfId op.predecessors) DepState.init

/-- The attribute state of a `Task` object
(`src/fluidml/common/task.py`).  `σ` is the type of results stores, `ρ`
of resources, `κ` of configuration dictionaries, `τ` of the objects a
dependency edge points to. -/
structure TaskObject (κ σ ρ τ : Type) where
  kwargs : Option κ
  name : Option String
  publishes : Option (List String)
  id_ : Option Int
  unique_config : Option κ
  reduce : Bool
  force : Option String
  results_store : Option σ
  resource : Option ρ
  predecessors : List τ
  successors : List τ

/-- `Task.__init__(self, kwargs)` (task.py lines 17-33): store `kwargs`,
call `DependencyMixin.__init__` (empty edge lists), and set every other
slot to its sentinel (`None`, and `False` for `_reduce`). -/
def Task_init (kwargs : Option κ) : TaskObject κ σ ρ τ :=
  { kwargs := kwargs
    name := none
    publishes := none
    id_ := none
    unique_config := none
    reduce := false
    force := none
    results_store := none
    resource := none
    predecessors := []
    successors := [] }

/-- The method and property names the class body of `Task`
(task.py lines 14-107) defines. -/
def taskMethodNames : List String :=
  ["__init__", "name", "id_", "unique_config", "results_store",
   "resource", "force", "publishes", "reduce", "run"]

/-- The method and property names the class body of `DependencyMixin`
(dependency.py lines 8-42) defines; `Task` inherits them. -/
def dependencyMixinMethodNames : List String :=
  ["__init__", "requires", "required_by", "predecessors", "successors"]

/-- Every method or property name an attribute lookup on a `Task`
instance can resolve through the classes defined in this repository
(`Task` itself and its base `DependencyMixin`; the remaining bases
`ABC` and `object` are standard-library classes). -/
def taskResolvableMethodNames : List String :=
  taskMethodNames ++ dependencyMixinMethodNames

theorem packReduceGo_eq (results_store : ResultsStore κ υ)
    (calls : List (GetResultsCall κ)) (all_results : List (PVal κ υ))
    (preds : List (Task κ)) :
    packReduceGo results_store calls all_results preds =
      (calls ++ preds.map toCall,
       all_results ++ preds.map (resultRecord results_store)) := by
  induction preds generalizing calls all_results with
  | nil => simp [packReduceGo]
  | cons p rest ih => simp [packReduceGo, ih, toCall, resultRecord]

/-- C2: for every predecessor list of a reduce task,
`pack_predecessor_results(..., reduce_task=True)` issues one
`get_results` call per predecessor, in list order, and returns the
dictionary with the single fixed key `reduced_results`, bound to the
list of one `{result, config}` record per predecessor (in predecessor
order, `result` being the store answer and `config` the predecessor
unique_config); the length of that list is the number of
predecessors. -/
theorem pack_predecessor_results_reduce (results_store : ResultsStore κ υ)
    (predecessor_tasks : List (Task κ)) :
    pack_predecessor_results predecessor_tasks results_store true =
      (predecessor_tasks.map toCall,
       Except.ok [("reduced_results",
         PVal.list (predecessor_tasks.map (resultRecord results_store)))]) ∧
    (predecessor_tasks.map (resultRecord results_store)).length
      = predecessor_tasks.length := by
  refine ⟨?_, by simp⟩
  simp [pack_predecessor_results, packReduceGo_eq]

theorem required_by_preds (s : DepState) (selfId successor : Nat) :
    (required_by s selfId successor).preds = s.preds := rfl

theorem foldl_required_by_preds (ps : List Nat) (s : DepState) (a : Nat) :
    (ps.foldl (fun st p => required_by st p a) s).preds = s.preds := by
  induction ps generalizing s with
  | nil => rfl
  | cons p rest ih =>
    rw [List.foldl_cons, ih, required_by_preds]

theorem foldl_required_by_succs (ps : List Nat) (s : DepState) (a i : Nat) :
    (ps.foldl (fun st p => required_by st p a) s).succs i
      = s.succs i ++ List.replicate (ps.count i) a := by
  induction ps generalizing s with
  | nil => simp
  | cons p rest ih =>
    rw [List.foldl_cons, ih]
    by_cases h : i = p
    · subst h
      simp [required_by, List.count_cons, List.replicate_succ]
    · have hpi : ¬ (i == p) = true := by simpa using h
      simp [required_by, h, List.count_cons, Ne.symm h]

theorem requires_preds_self (s : DepState) (a : Nat) (arg : PredArg) :
    (requires s a arg).preds a = s.preds a ++ arg.toList := by
  simp [requires, foldl_required_by_preds]

theorem requires_preds_other (s : DepState) (a : Nat) (arg : PredArg)
    (i : Nat) (h : i ≠ a) :
    (requires s a arg).preds i = s.preds i := by
  simp [requires, foldl_required_by_preds, h]

theorem requires_succs (s : DepState) (a : Nat) (arg : PredArg) (i : Nat) :
    (requires s a arg).succs i
      = s.succs i ++ List.replicate (arg.toList.count i) a := by
  simp [requires, foldl_required_by_succs]

/-- C6: `requires(self, predecessors)` appends the given
predecessor(s), in order, to the predecessor list of `self`; the
successor list of every object `i` grows by exactly one copy of `self`
per occurrence of `i` among the given predecessors (so each given
predecessor gains `self` once, and objects not given keep their
successor list, the replicate count being zero); no other predecessor
list changes. -/
theorem requires_spec (s : DepState) (a : Nat) (arg : PredArg) :
    (requires s a arg).preds a = s.preds a ++ arg.toList ∧
    (∀ i, i ≠ a → (requires s a arg).preds i = s.preds i) ∧
    (∀ i, (requires s a arg).succs i
        = s.succs i ++ List.replicate (arg.toList.count i) a) ∧
    (∀ i, i ∉ arg.toList → (requires s a arg).succs i = s.succs i) := by
  refine ⟨requires_preds_self s a arg,
          fun i h => requires_preds_other s a arg i h,
          fun i => requires_succs s a arg i, fun i h => ?_⟩
  rw [requires_succs]
  simp [List.count_eq_zero_of_not_mem h]

/-- C5 counterexample: with two freshly constructed objects `0` and
`1`, calling `requires 0 (single 1)` twice does not leave the
predecessor list of `0` and the successor list of `1` in the state one
call produces: the edge is recorded twice. -/
theorem requires_not_idempotent_cex :
    ¬ (((requires (requires DepState.init 0 (PredArg.single 1)) 0
          (PredArg.single 1)).preds 0
        = (requires DepState.init 0 (PredArg.single 1)).preds 0) ∧
       ((requires (requires DepState.init 0 (PredArg.single 1)) 0
          (PredArg.single 1)).succs 1
        = (requires DepState.init 0 (PredArg.single 1)).succs 1)) := by
  decide

/-- C5 (amended): `requires` is not idempotent; duplicate edges
accumulate: calling `a.requires(b)` twice appends `b` twice to the
predecessor list of `a` and `a` twice to the successor list of `b`. -/
theorem requires_twice_appends_twice (s : DepState) (a b : Nat) :
    (requires (requires s a (PredArg.single b)) a (PredArg.single b)).preds a
      = s.preds a ++ [b, b] ∧
    (requires (requires s a (PredArg.single b)) a (PredArg.single b)).succs b
      = s.succs b ++ [a, a] := by
  constructor
  · rw [requires_preds_self, requires_preds_self]
    simp [PredArg.toList]
  · rw [requires_succs, requires_succs]
    simp [PredArg.toList, List.replicate_succ]

theorem requires_preserves_symmetry (s : DepState)
    (h : ∀ a b : Nat, (s.preds a).count b = (s.succs b).count a)
    (x : Nat) (arg : PredArg) (a b : Nat) :
    ((requires s x arg).preds a).count b
      = ((requires s x arg).succs b).count a := by
  rw [requires_succs, List.count_append, List.count_replicate]
  by_cases hax : a = x
  · subst hax
    rw [requires_preds_self, List.count_append, h a b]
    simp
  · have hxa : ¬ x = a := fun h2 => hax h2.symm
    rw [requires_preds_other s x arg a hax, h a b]
    simp [hxa, hax]

theorem foldl_requires_symmetry (ops : List ReqCall) (s : DepState)
    (h : ∀ a b : Nat, (s.preds a).count b = (s.succs b).count a)
    (a b : Nat) :
    (((ops.foldl (fun st op => requires st op.selfId op.predecessors) s).preds a).count b)
      = (((ops.foldl (fun st op => requires st op.selfId op.predecessors) s).succs b).count a) := by
  induction ops generalizing s with
  | nil => exact h a b
  | cons op rest ih =>
    exact ih (requires s op.selfId op.predecessors)
      (fun a b => requires_preserves_symmetry s h op.selfId op.predecessors a b)

/-- C8: edge symmetry invariant: starting from freshly constructed
objects, after any sequence of `requires` calls the number of
occurrences of `b` in the predecessor list of `a` equals the number of
occurrences of `a` in the successor list of `b`. -/
theorem edge_symmetry_invariant (ops : List ReqCall) (a b : Nat) :
    ((runRequires ops).preds a).count b = ((runRequires ops).succs b).count a := by
  exact foldl_requires_symmetry ops DepState.init (fun _ _ => rfl) a b

/-- C7: the `Task` class of `src/fluidml/common/task.py` (together with
its repository base class `DependencyMixin`) defines no method named
`save` and none named `load`, contradicting the spec sentence that the
user-facing `Task` provides `save`/`load` convenience methods (which
the repository tests themselves call). -/
theorem task_class_lacks_save_load :
    "save" ∉ taskResolvableMethodNames ∧ "load" ∉ taskResolvableMethodNames := by
  decide

/-- C10: a freshly constructed `Task` stores `kwargs` as given, starts
with empty predecessor and successor lists, `reduce = False`, and
`name`, `publishes`, `id_`, `unique_config`, `force`, `results_store`
and `resource` all `None`. -/
theorem Task_init_state {σ ρ τ : Type} (kwargs : Option κ) :
    (Task_init kwargs : TaskObject κ σ ρ τ).kwargs = kwargs ∧
    (Task_init kwargs : TaskObject κ σ ρ τ).predecessors = [] ∧
    (Task_init kwargs : TaskObject κ σ ρ τ).successors = [] ∧
    (Task_init kwargs : TaskObject κ σ ρ τ).reduce = false ∧
    (Task_init kwargs : TaskObject κ σ ρ τ).name = none ∧
    (Task_init kwargs : TaskObject κ σ ρ τ).publishes = none ∧
    (Task_init kwargs : TaskObject κ σ ρ τ).id_ = none ∧
    (Task_init kwargs : TaskObject κ σ ρ τ).unique_config = none ∧
    (Task_init kwargs : TaskObject κ σ ρ τ).force = none ∧
    (Task_init kwargs : TaskObject κ σ ρ τ).results_store = none ∧
    (Task_init kwargs : TaskObject κ σ ρ τ).resource = none :=
  ⟨rfl, rfl, rfl, rfl, rfl, rfl, rfl, rfl, rfl, rfl, rfl⟩

/-- The keys `items` may be inserted into a dictionary with key list
`acc` without triggering `TaskResultKeyAlreadyExists`: they are
pairwise distinct and none is already present. -/
def freshKeys (acc : List String) (items : List String) : Prop :=
  items.Nodup ∧ ∀ k ∈ items, k ∉ acc

theorem mergeItems_eq_ok (pname : String) (acc : List (String × PVal κ υ))
    (items : List (String × PVal κ υ))
    (h : freshKeys (acc.map Prod.fst) (items.map Prod.fst)) :
    mergeItems pname acc items = Except.ok (acc ++ items) := by
  induction items generalizing acc with
  | nil => simp [mergeItems]
  | cons kv rest ih =>
    obtain ⟨k, v⟩ := kv
    obtain ⟨hnd, hdisj⟩ := h
    simp only [List.map_cons, List.nodup_cons] at hnd
    have hk : k ∉ acc.map Prod.fst := hdisj k (by simp)
    rw [mergeItems, if_neg hk,
      ih (acc ++ [(k, v)]) ⟨hnd.2, ?_⟩]
    · simp
    · intro k2 hk2
      simp only [List.map_append, List.map_cons, List.map_nil, List.mem_append,
        List.mem_singleton, not_or]
      refine ⟨hdisj k2 (by simp [hk2]), ?_⟩
      intro hkk
      exact hnd.1 (hkk ▸ hk2)

theorem mergeItems_eq_error (pname : String) (acc : List (String × PVal κ υ))
    (items : List (String × PVal κ υ))
    (h : ¬ freshKeys (acc.map Prod.fst) (items.map Prod.fst)) :
    ∃ e, mergeItems pname acc items = Except.error e := by
  induction items generalizing acc with
  | nil => exact absurd ⟨by simp, by simp⟩ h
  | cons kv rest ih =>
    obtain ⟨k, v⟩ := kv
    by_cases hk : k ∈ acc.map Prod.fst
    · exact ⟨_, by rw [mergeItems, if_pos hk]⟩
    · rw [mergeItems, if_neg hk]
      refine ih (acc ++ [(k, v)]) ?_
      intro hfresh
      obtain ⟨hnd, hdj⟩ := hfresh
      apply h
      have hkrest : k ∉ rest.map Prod.fst := by
        intro hmem
        exact hdj k hmem (by simp)
      refine ⟨by rw [List.map_cons]; exact List.nodup_cons.mpr ⟨hkrest, hnd⟩, ?_⟩
      intro k2 hk2
      simp only [List.map_cons, List.mem_cons] at hk2
      rcases hk2 with hk2 | hk2
      · exact hk2 ▸ hk
      · have := hdj k2 hk2
        simp only [List.map_append, List.map_cons, List.map_nil, List.mem_append,
          List.mem_singleton, not_or] at this
        exact this.1

/-- The non-reduce merge of the store results of `preds` succeeds when
started with accumulated key list `acc`: every result dictionary has
pairwise distinct keys, the key sets of distinct predecessors are
pairwise disjoint, and none of the keys is already in `acc`. -/
def packCond (results_store : ResultsStore κ υ) (acc : List String)
    (preds : List (Task κ)) : Prop :=
  ((preds.map (resultKeys results_store)).flatten).Nodup ∧
  ∀ k ∈ (preds.map (resultKeys results_store)).flatten, k ∉ acc

theorem packCond_cons (results_store : ResultsStore κ υ) (acc : List String)
    (p : Task κ) (rest : List (Task κ)) :
    packCond results_store acc (p :: rest) ↔
      freshKeys acc (resultKeys results_store p) ∧
      packCond results_store (acc ++ resultKeys results_store p) rest := by
  unfold packCond freshKeys
  simp only [List.map_cons, List.flatten_cons, List.nodup_append,
    List.mem_append, List.disjoint_left, or_imp, forall_and, not_or]
  tauto

theorem packNonReduceGo_cons_ok {results_store : ResultsStore κ υ}
    {calls : List (GetResultsCall κ)} {acc merged : List (String × PVal κ υ)}
    {p : Task κ} {rest : List (Task κ)}
    (hm : mergeItems p.name acc
      (results_store.get_results p.name p.unique_config p.publishes) = Except.ok merged) :
    packNonReduceGo results_store calls acc (p :: rest) =
      packNonReduceGo results_store
        (calls ++ [⟨p.name, p.unique_config, p.publishes⟩]) merged rest := by
  rw [packNonReduceGo, hm]

theorem packNonReduceGo_cons_error {results_store : ResultsStore κ υ}
    {calls : List (GetResultsCall κ)} {acc : List (String × PVal κ υ)}
    {p : Task κ} {rest : List (Task κ)} {e : String}
    (hm : mergeItems p.name acc
      (results_store.get_results p.name p.unique_config p.publishes) = Except.error e) :
    packNonReduceGo results_store calls acc (p :: rest) =
      (calls ++ [⟨p.name, p.unique_config, p.publishes⟩], Except.error e) := by
  rw [packNonReduceGo, hm]

theorem packNonReduceGo_eq_ok (results_store : ResultsStore κ υ)
    (calls : List (GetResultsCall κ)) (acc : List (String × PVal κ υ))
    (preds : List (Task κ))
    (h : packCond results_store (acc.map Prod.fst) preds) :
    packNonReduceGo results_store calls acc preds =
      (calls ++ preds.map toCall,
       Except.ok (acc ++ (preds.map (fun p =>
         results_store.get_results p.name p.unique_config p.publishes)).flatten)) := by
  induction preds generalizing calls acc with
  | nil => simp [packNonReduceGo]
  | cons p rest ih =>
    rw [packCond_cons] at h
    obtain ⟨h1, h2⟩ := h
    have hm : mergeItems p.name acc
        (results_store.get_results p.name p.unique_config p.publishes) =
        Except.ok (acc ++ results_store.get_results p.name p.unique_config p.publishes) :=
      mergeItems_eq_ok p.name acc _ h1
    rw [packNonReduceGo_cons_ok hm]
    rw [ih _ _ (by simpa [resultKeys] using h2)]
    simp [toCall]

theorem packNonReduceGo_error (results_store : ResultsStore κ υ)
    (calls : List (GetResultsCall κ)) (acc : List (String × PVal κ υ))
    (preds : List (Task κ))
    (h : ¬ packCond results_store (acc.map Prod.fst) preds) :
    ∃ e, (packNonReduceGo results_store calls acc preds).2 = Except.error e := by
  induction preds generalizing calls acc with
  | nil => exact absurd ⟨by simp, by simp⟩ h
  | cons p rest ih =>
    by_cases h1 : freshKeys (acc.map Prod.fst) (resultKeys results_store p)
    · have hm : mergeItems p.name acc
          (results_store.get_results p.name p.unique_config p.publishes) =
          Except.ok (acc ++ results_store.get_results p.name p.unique_config p.publishes) :=
        mergeItems_eq_ok p.name acc _ h1
      rw [packNonReduceGo_cons_ok hm]
      refine ih _ (acc ++ results_store.get_results p.name p.unique_config p.publishes) ?_
      intro h2
      exact h ((packCond_cons results_store _ p rest).mpr
        ⟨h1, by simpa [resultKeys] using h2⟩)
    · obtain ⟨e, he⟩ := mergeItems_eq_error p.name acc _ h1
      rw [packNonReduceGo_cons_error he]
      exact ⟨e, rfl⟩

theorem packNonReduceGo_error_iff (results_store : ResultsStore κ υ)
    (calls : List (GetResultsCall κ)) (acc : List (String × PVal κ υ))
    (preds : List (Task κ)) :
    (∃ e, (packNonReduceGo results_store calls acc preds).2 = Except.error e) ↔
      ¬ packCond results_store (acc.map Prod.fst) preds := by
  constructor
  · rintro ⟨e, he⟩ hc
    rw [packNonReduceGo_eq_ok results_store calls acc preds hc] at he
    cases he
  · exact packNonReduceGo_error results_store calls acc preds

theorem flatten_nodup_iff_indices (results_store : ResultsStore κ υ)
    (preds : List (Task κ))
    (hn : ∀ p ∈ preds, (resultKeys results_store p).Nodup) :
    ((preds.map (resultKeys results_store)).flatten).Nodup ↔
      ∀ i j : Fin preds.length, i < j →
        ∀ k, k ∈ resultKeys results_store (preds.get i) →
          k ∉ resultKeys results_store (preds.get j) := by
  rw [List.nodup_flatten]
  have hall : ∀ l ∈ preds.map (resultKeys results_store), l.Nodup := by
    intro l hl
    obtain ⟨p, hp, rfl⟩ := List.mem_map.mp hl
    exact hn p hp
  rw [and_iff_right hall, List.pairwise_map, List.pairwise_iff_get]
  constructor
  · intro hpw i j hij k hki hkj
    exact hpw i j hij hki hkj
  · intro hidx i j hij a ha hb
    exact hidx i j hij a ha hb

/-- C1: for every non-reduce predecessor list whose store results are
dictionaries (pairwise distinct keys within each result),
`pack_predecessor_results(..., reduce_task=False)` raises
`TaskResultKeyAlreadyExists` if and only if two distinct predecessors
(distinct positions in the list) contribute the same artifact key; and
when it raises, no result dictionary is returned. -/
theorem pack_predecessor_results_duplicate_key_iff
    (results_store : ResultsStore κ υ) (preds : List (Task κ))
    (hn : ∀ p ∈ preds, (resultKeys results_store p).Nodup) :
    ((∃ e, (pack_predecessor_results preds results_store false).2 = Except.error e) ↔
      ∃ i j : Fin preds.length, i < j ∧ ∃ k,
        k ∈ resultKeys results_store (preds.get i) ∧
        k ∈ resultKeys results_store (preds.get j)) ∧
    (∀ e, (pack_predecessor_results preds results_store false).2 = Except.error e →
      ¬ ∃ r, (pack_predecessor_results preds results_store false).2 = Except.ok r) := by
  constructor
  · have hpack : pack_predecessor_results preds results_store false =
        packNonReduceGo results_store [] [] preds := by
      simp [pack_predecessor_results]
    rw [hpack, packNonReduceGo_error_iff]
    have hcond : packCond results_store (([] : List (String × PVal κ υ)).map Prod.fst) preds ↔
        ((preds.map (resultKeys results_store)).flatten).Nodup := by
      unfold packCond
      simp
    rw [hcond, flatten_nodup_iff_indices results_store preds hn]
    constructor
    · intro hne
      push_neg at hne
      obtain ⟨i, j, hij, k, hki, hkj⟩ := hne
      exact ⟨i, j, hij, k, hki, hkj⟩
    · rintro ⟨i, j, hij, k, hki, hkj⟩ hforall
      exact hforall i j hij k hki hkj
  · rintro e he ⟨r, hr⟩
    rw [he] at hr
    cases hr

/-- C3: for every non-reduce predecessor list whose store results are
dictionaries with pairwise disjoint key sets,
`pack_predecessor_results(..., reduce_task=False)` issues exactly one
`get_results(name, unique_config, publishes)` call per predecessor, in
list order, and returns the union of the returned mappings: their
concatenation, in which each key keeps the value contributed by its
predecessor. -/
theorem pack_predecessor_results_disjoint_union
    (results_store : ResultsStore κ υ) (preds : List (Task κ))
    (hn : ∀ p ∈ preds, (resultKeys results_store p).Nodup)
    (hd : ∀ i j : Fin preds.length, i ≠ j →
      ∀ k, k ∈ resultKeys results_store (preds.get i) →
        k ∉ resultKeys results_store (preds.get j)) :
    pack_predecessor_results preds results_store false =
      (preds.map toCall,
       Except.ok ((preds.map (fun p =>
         results_store.get_results p.name p.unique_config p.publishes)).flatten)) := by
  have hcond : packCond results_store
      (([] : List (String × PVal κ υ)).map Prod.fst) preds := by
    refine ⟨?_, by simp⟩
    rw [flatten_nodup_iff_indices results_store preds hn]
    intro i j hij k hki
    exact hd i j (Fin.ne_of_lt hij) k hki
  have := packNonReduceGo_eq_ok results_store [] [] preds hcond
  simpa [pack_predecessor_results] using this

/-- A concrete store for witnesses: every task publishes the single
artifact key `a`. -/
def storeDupW : ResultsStore Nat Nat :=
  ⟨fun _ _ _ => [("a", PVal.obj 1)]⟩

/-- Two concrete predecessor tasks. -/
def predsW : List (Task Nat) :=
  [⟨"t1", 0, ["a"]⟩, ⟨"t2", 1, ["a"]⟩]

theorem pack_predecessor_results_duplicate_key_iff_witness :
    (∀ p ∈ predsW, (resultKeys storeDupW p).Nodup) ∧
    (((∃ e, (pack_predecessor_results predsW storeDupW false).2 = Except.error e) ↔
      ∃ i j : Fin predsW.length, i < j ∧ ∃ k,
        k ∈ resultKeys storeDupW (predsW.get i) ∧
        k ∈ resultKeys storeDupW (predsW.get j)) ∧
    (∀ e, (pack_predecessor_results predsW storeDupW false).2 = Except.error e →
      ¬ ∃ r, (pack_predecessor_results predsW storeDupW false).2 = Except.ok r)) :=
  ⟨by decide, pack_predecessor_results_duplicate_key_iff storeDupW predsW (by decide)⟩

/-- A concrete store for the disjoint-union witness: task `t1`
publishes key `a`, every other task key `b`. -/
def storeDisjW : ResultsStore Nat Nat :=
  ⟨fun name _ _ => if name = "t1" then [("a", PVal.obj 1)] else [("b", PVal.obj 2)]⟩

theorem pack_predecessor_results_disjoint_union_witness :
    ((∀ p ∈ predsW, (resultKeys storeDisjW p).Nodup) ∧
     (∀ i j : Fin predsW.length, i ≠ j →
       ∀ k, k ∈ resultKeys storeDisjW (predsW.get i) →
         k ∉ resultKeys storeDisjW (predsW.get j))) ∧
    pack_predecessor_results predsW storeDisjW false =
      (predsW.map toCall,
       Except.ok ((predsW.map (fun p =>
         storeDisjW.get_results p.name p.unique_config p.publishes)).flatten)) :=
  ⟨⟨by decide, by decide⟩,
   pack_predecessor_results_disjoint_union storeDisjW predsW (by decide) (by decide)⟩

/-- Combine the value list a key already has with the entries the loop
appends for it: `none` stays `none` only when nothing is appended. -/
def groupedLookup (old : Option (List α)) (new : List α) : Option (List α) :=
  match old, new with
  | some xs, ys => some (xs ++ ys)
  | none, [] => none
  | none, ys => some ys

theorem groupedLookup_shift (old : Option (List α)) (x : α) (new : List α) :
    groupedLookup (some (old.getD [] ++ [x])) new = groupedLookup old (x :: new) := by
  cases old <;> cases new <;> simp [groupedLookup]

theorem lookup_dappend (results : List (String × List α)) (key : String)
    (x : α) (n : String) :
    (dappend results key x).lookup n =
      if n = key then some (((results.lookup n).getD []) ++ [x])
      else results.lookup n := by
  induction results with
  | nil =>
    by_cases h : n = key
    · simp [dappend, List.lookup, h]
    · have hb : (n == key) = false := beq_eq_false_iff_ne.mpr h
      simp [dappend, List.lookup, h, hb]
  | cons e rest ih =>
    obtain ⟨k, xs⟩ := e
    by_cases hk : k = key
    · subst hk
      by_cases hn : n = k
      · subst hn
        simp [dappend, List.lookup]
      · have hb : (n == k) = false := beq_eq_false_iff_ne.mpr hn
        simp [dappend, List.lookup, hn, hb, ih]
    · by_cases hn : n = k
      · subst hn
        have hnk : n ≠ key := hk
        have hb : (n == key) = false := beq_eq_false_iff_ne.mpr hnk
        simp [dappend, List.lookup, hk, hnk, hb]
      · have hb : (n == k) = false := beq_eq_false_iff_ne.mpr hn
        simp [dappend, List.lookup, hk, hn, hb, ih]

theorem packResultsGo_calls (results_store : ResultsStore κ υ)
    (calls : List (GetResultsCall κ)) (results : List (String × List (PVal κ υ)))
    (ts : List (Task κ)) :
    (packResultsGo results_store calls results ts).1 = calls ++ ts.map toCall := by
  induction ts generalizing calls results with
  | nil => simp [packResultsGo]
  | cons t rest ih => simp [packResultsGo, ih, toCall]

theorem packResultsGo_lookup (results_store : ResultsStore κ υ)
    (calls : List (GetResultsCall κ)) (results : List (String × List (PVal κ υ)))
    (ts : List (Task κ)) (n : String) :
    ((packResultsGo results_store calls results ts).2).lookup n =
      groupedLookup (results.lookup n)
        ((ts.filter (fun t => t.name == n)).map (resultRecord results_store)) := by
  induction ts generalizing calls results with
  | nil =>
    cases h : results.lookup n <;> simp [packResultsGo, groupedLookup, h]
  | cons t rest ih =>
    rw [packResultsGo, ih]
    by_cases hn : t.name = n
    · rw [lookup_dappend]
      rw [if_pos hn.symm]
      have hfil : (t :: rest).filter (fun t => t.name == n) =
          t :: rest.filter (fun t => t.name == n) := by
        simp [List.filter_cons, hn]
      rw [hfil, List.map_cons, ← groupedLookup_shift]
      have : resultRecord results_store t = PVal.strDict
          [("result", PVal.strDict (results_store.get_results t.name
              t.unique_config t.publishes)),
           ("config", PVal.cfg t.unique_config)] := rfl
      rw [this]
    · rw [lookup_dappend]
      rw [if_neg (fun h => hn h.symm)]
      have hfil : (t :: rest).filter (fun t => t.name == n) =
          rest.filter (fun t => t.name == n) := by
        simp [List.filter_cons, hn]
      rw [hfil]

theorem packConfigsGo_lookup (results : List (String × List (PVal κ υ)))
    (ts : List (Task κ)) (n : String) :
    (packConfigsGo results ts).lookup n =
      groupedLookup (results.lookup n)
        ((ts.filter (fun t => t.name == n)).map
          (fun t => (PVal.cfg t.unique_config : PVal κ υ))) := by
  induction ts generalizing results with
  | nil =>
    cases h : results.lookup n <;> simp [packConfigsGo, groupedLookup, h]
  | cons t rest ih =>
    rw [packConfigsGo, ih]
    by_cases hn : t.name = n
    · rw [lookup_dappend, if_pos hn.symm]
      have hfil : (t :: rest).filter (fun t => t.name == n) =
          t :: rest.filter (fun t => t.name == n) := by
        simp [List.filter_cons, hn]
      rw [hfil, List.map_cons, ← groupedLookup_shift]
    · rw [lookup_dappend, if_neg (fun h => hn h.symm)]
      have hfil : (t :: rest).filter (fun t => t.name == n) =
          rest.filter (fun t => t.name == n) := by
        simp [List.filter_cons, hn]
      rw [hfil]

theorem lookup_simplify_results (results : List (String × List (PVal κ υ)))
    (n : String) :
    (simplify_results results).lookup n = (results.lookup n).map simplify_value := by
  induction results with
  | nil => simp [simplify_results]
  | cons e rest ih =>
    obtain ⟨k, xs⟩ := e
    by_cases h : n = k
    · simp [simplify_results, List.lookup, h, ih]
    · have hb : (n == k) = false := beq_eq_false_iff_ne.mpr h
      have ih2 : (simplify_results rest).lookup n
          = (rest.lookup n).map simplify_value := ih
      simp only [simplify_results, List.map_cons, List.lookup, hb] at ih2 ⊢
      exact ih2

/-- C4: `pack_results(..., return_results=True)` issues one
`get_results(name, unique_config, publishes)` call per task (loading
each result keyed by the task unique_config) and groups the
`{result, config}` records by task name: a name carried by exactly one
task maps to its single record unwrapped from the list, a name carried
by several tasks maps to the list of their records (in task-list
order); a name carried by no task is absent. -/
theorem pack_results_groups (results_store : ResultsStore κ υ)
    (all_tasks : List (Task κ)) :
    (pack_results all_tasks results_store true).1 = all_tasks.map toCall ∧
    ∀ n : String, ((pack_results all_tasks results_store true).2).lookup n =
      match (all_tasks.filter (fun t => t.name == n)).map (resultRecord results_store) with
      | [] => none
      | [r] => some r
      | rs => some (PVal.list rs) := by
  constructor
  · simp [pack_results, packResultsGo_calls]
  · intro n
    have hpack : (pack_results all_tasks results_store true).2 =
        simplify_results (packResultsGo results_store [] [] all_tasks).2 := by
      simp [pack_results]
    rw [hpack, lookup_simplify_results, packResultsGo_lookup]
    cases hnew : (all_tasks.filter (fun t => t.name == n)).map (resultRecord results_store) with
    | nil => simp [groupedLookup, List.lookup]
    | cons r rs =>
      cases rs with
      | nil => simp [groupedLookup, List.lookup, simplify_value]
      | cons r2 rs2 => simp [groupedLookup, List.lookup, simplify_value]

/-- C9: `pack_results(..., return_results=False)` performs no store
access and returns, for each task name, the unique_configs of the
tasks bearing that name, grouped as in the other branch: a single
config is unwrapped, several stay a list (in task-list order); a name
carried by no task is absent. -/
theorem pack_results_configs (results_store : ResultsStore κ υ)
    (all_tasks : List (Task κ)) :
    (pack_results all_tasks results_store false).1 = [] ∧
    ∀ n : String, ((pack_results all_tasks results_store false).2).lookup n =
      match (all_tasks.filter (fun t => t.name == n)).map
          (fun t => (PVal.cfg t.unique_config : PVal κ υ)) with
      | [] => none
      | [c] => some c
      | cs => some (PVal.list cs) := by
  constructor
  · simp [pack_results]
  · intro n
    have hpack : (pack_results all_tasks results_store false).2 =
        simplify_results (packConfigsGo [] all_tasks) := by
      simp [pack_results]
    rw [hpack, lookup_simplify_results, packConfigsGo_lookup]
    cases hnew : (all_tasks.filter (fun t => t.name == n)).map
        (fun t => (PVal.cfg t.unique_config : PVal κ υ)) with
    | nil => simp [groupedLookup, List.lookup]
    | cons c cs =>
      cases cs with
      | nil => simp [groupedLookup, List.lookup, simplify_value]
      | cons c2 cs2 => simp [groupedLookup, List.lookup, simplify_value]

end FluidML
